import Mathlib

/-!
Shallow embedding of the xUpload core (src/embeddings.ts, src/background.ts,
src/scan.ts) in Lean 4: tokenizer, TF-IDF vocabulary model and vectorizer,
incremental index builder, and the multi-signal ranking path, together with
proofs of the specified properties.

Strings are modelled as `List Char`; JavaScript `Map`s are modelled as
association lists in insertion order (`Map.set` replaces the value of an
existing key in place and appends fresh keys, `Map.get` returns the value of
the unique matching key); JavaScript numbers are modelled as real numbers.
-/

namespace XUpload

abbrev Token := List Char

/-! ### Insertion-ordered maps (JavaScript `Map`) -/

/-- `Map.get k`: the value stored at the first (unique) occurrence of `k`. -/
def lookup {α β : Type} [DecidableEq α] : List (α × β) → α → Option β
  | [], _ => none
  | p :: rest, k => if p.1 = k then some p.2 else lookup rest k

/-- `Map.set k v`: replace in place when the key is present, append otherwise. -/
def mapSet {α β : Type} [DecidableEq α] : List (α × β) → α → β → List (α × β)
  | [], k, v => [(k, v)]
  | p :: rest, k, v => if p.1 = k then (p.1, v) :: rest else p :: mapSet rest k v

/-! ### Tokenizer (src/embeddings.ts, `tokenize`) -/

/-- One character of the `/[a-z0-9]/` class (after lower-casing). -/
def isAsciiAlphanum (c : Char) : Bool :=
  (0x61 ≤ c.toNat && c.toNat ≤ 0x7a) || (0x30 ≤ c.toNat && c.toNat ≤ 0x39)

/-- One character of the `/[一-鿿㐀-䶿]/` CJK class. -/
def isCJK (c : Char) : Bool :=
  (0x4e00 ≤ c.toNat && c.toNat ≤ 0x9fff) || (0x3400 ≤ c.toNat && c.toNat ≤ 0x4dbf)

/-- `String.prototype.trim`. -/
def trim (l : List Char) : List Char :=
  ((l.dropWhile Char.isWhitespace).reverse.dropWhile Char.isWhitespace).reverse

/-- `text.toLowerCase().trim()` (case mapping modelled on the ASCII range,
which is the only cased range the tokenizer's character classes select). -/
def normalize (text : List Char) : List Char :=
  trim (text.map Char.toLower)

/-- Maximal runs of ASCII alphanumerics: `normalized.match(/[a-z0-9]+/g)`.
The accumulator holds the current run, reversed. -/
def asciiRunsAux : List Char → List Char → List Token
  | [], cur => if cur = [] then [] else [cur.reverse]
  | c :: cs, cur =>
    if isAsciiAlphanum c then asciiRunsAux cs (c :: cur)
    else (if cur = [] then [] else [cur.reverse]) ++ asciiRunsAux cs []

def asciiRuns (l : List Char) : List Token := asciiRunsAux l []

/-- Bigrams over consecutive elements of a character list
(the `for (let i = 0; i < cjk.length - 1; i++)` loop). -/
def cjkBigrams : List Char → List Token
  | a :: b :: rest => [a, b] :: cjkBigrams (b :: rest)
  | _ => []

/-- `tokenize` from src/embeddings.ts: ASCII alphanumeric runs, individual CJK
characters, then bigrams over the extracted CJK character sequence. -/
def tokenize (text : List Char) : List Token :=
  let normalized := normalize text
  let words := asciiRuns normalized
  let cjk := normalized.filter isCJK
  words ++ cjk.map (fun c => [c]) ++ cjkBigrams cjk

/-- Stated from the spec's words (§4.1 "every adjacent CJK character pair"),
for comparison against `tokenize`: the bigrams over pairs of characters that
are adjacent in the text itself and both CJK. -/
def specAdjacentCJKBigrams : List Char → List Token
  | a :: b :: rest =>
    (if isCJK a && isCJK b then [[a, b]] else []) ++ specAdjacentCJKBigrams (b :: rest)
  | _ => []

/-! ### Vocabulary model & vectorizer (src/embeddings.ts) -/

/-- The module-level state `vocabulary : Map<string, number>` (term → dense
index) and `idfValues : Map<string, number>` (term → idf weight). -/
structure VocabModel where
  vocabulary : List (Token × Nat)
  idfValues : List (Token × ℝ)

def getVocabSize (m : VocabModel) : Nat := m.vocabulary.length

/-- `new Set(doc)`: distinct elements in first-occurrence order. -/
def distinctTerms (doc : List Token) : List Token :=
  doc.foldl (fun acc t => if t ∈ acc then acc else acc ++ [t]) []

/-- The document-frequency map accumulated by `buildVocabulary`'s first loop. -/
def dfMap (docs : List (List Token)) : List (Token × Nat) :=
  docs.foldl
    (fun df doc =>
      (distinctTerms doc).foldl (fun df t => mapSet df t ((lookup df t).getD 0 + 1)) df)
    []

/-- `buildVocabulary` from src/embeddings.ts: dense indices are assigned in
`df`-map iteration order, and `idf(term) = ln((N+1)/(df(term)+1)) + 1`. -/
noncomputable def buildVocabulary (docs : List (List Token)) : VocabModel :=
  let N := docs.length
  let df := dfMap docs
  { vocabulary := df.enum.map (fun p => (p.2.1, p.1))
    idfValues := df.map (fun p => (p.1, Real.log (((N : ℝ) + 1) / ((p.2 : ℝ) + 1)) + 1)) }

/-- `vectorize` from src/embeddings.ts: dense TF-IDF vector, L2-normalized;
returns the empty vector when the vocabulary is empty. -/
noncomputable def vectorize (tokens : List Token) (m : VocabModel) : List ℝ :=
  let dim := m.vocabulary.length
  if dim = 0 then []
  else
    let tf : List (Token × Nat) :=
      tokens.foldl (fun acc t => mapSet acc t ((lookup acc t).getD 0 + 1)) []
    let maxTf : Nat := (tf.map (·.2)).foldl max 1
    let vec := tf.foldl
      (fun v p =>
        match lookup m.vocabulary p.1 with
        | some idx => v.set idx (((p.2 : ℝ) / (maxTf : ℝ)) * ((lookup m.idfValues p.1).getD 1))
        | none => v)
      (List.replicate dim 0)
    let norm := Real.sqrt ((vec.map (fun x => x * x)).sum)
    if 0 < norm then vec.map (fun x => x / norm) else vec

/-! ### Vocab serialization (src/embeddings.ts, `exportVocab`/`importVocab`) -/

structure VocabSnapshot where
  terms : List Token
  idf : List ℝ

/-- `exportVocab`: place each term at its index in two parallel arrays
(`terms[idx] = term; idf[idx] = idfValues.get(term) || 1`). -/
noncomputable def exportVocab (m : VocabModel) : VocabSnapshot :=
  let n := m.vocabulary.length
  let filled := m.vocabulary.foldl
    (fun acc p => (acc.1.set p.2 p.1, acc.2.set p.2 ((lookup m.idfValues p.1).getD 1)))
    (List.replicate n ([] : Token), List.replicate n (0 : ℝ))
  ⟨filled.1, filled.2⟩

/-- `importVocab`: `for i: vocabulary.set(terms[i], i); idfValues.set(terms[i], idf[i])`
(the parallel arrays are traversed together). -/
def importVocab (s : VocabSnapshot) : VocabModel :=
  (s.terms.zip s.idf).enum.foldl
    (fun m p => ⟨mapSet m.vocabulary p.2.1 p.1, mapSet m.idfValues p.2.1 p.2.2⟩)
    ⟨[], []⟩

/-! ### Document store records and similarity search -/

/-- `VectorRecord` from src/vectordb.ts (the fields used by the core). -/
structure VectorRecord where
  id : List Char
  name : List Char
  path : List Char
  ftype : List Char
  size : Nat
  lastModified : Int
  vector : List ℝ
  textPreview : List Char

structure SearchResult where
  record : VectorRecord
  score : ℝ

section Ranking

open scoped Classical

/-- Modelled from the spec (§4.4) and the in-repo documentation of
`src/vectordb.ts` (not among the given sources): cosine similarity returning 0
when either vector has zero norm. -/
noncomputable def cosine (a b : List ℝ) : ℝ :=
  let dot := ((a.zip b).map (fun p => p.1 * p.2)).sum
  let normA := (a.map (fun x => x * x)).sum
  let normB := (b.map (fun x => x * x)).sum
  if normA = 0 ∨ normB = 0 then 0
  else dot / (Real.sqrt normA * Real.sqrt normB)

/-- Modelled from the spec (§4.4) and the in-repo documentation of
`src/vectordb.ts` (not among the given sources): brute-force similarity search —
score every stored vector passing the type filter, sort descending, take the
top `N`, drop non-positive scores.  The optional type filter is abstracted as a
predicate on records. -/
noncomputable def search (store : List VectorRecord) (queryVector : List ℝ)
    (topN : Nat) (pass : VectorRecord → Bool) : List SearchResult :=
  let all := store.filter pass
  (((all.map (fun r => (⟨r, cosine queryVector r.vector⟩ : SearchResult))).mergeSort
      (fun a b => decide (b.score ≤ a.score))).take topN).filter
    (fun r => decide (0 < r.score))

/-! ### Multi-level recommendation (src/background.ts) -/

/-- An upload-history entry for the current host, as returned by
`getHistoryByHost` (src/background.ts lines 144–151). -/
structure UploadHistoryEntry where
  fileId : List Char
  timestamp : ℝ

/-- The aggregate per-file history info (`{ count, lastTs }`). -/
structure HistInfo where
  count : Nat
  lastTs : ℝ

/-- The `historyMap` accumulation loop of `handleMatch` (lines 154–163). -/
noncomputable def buildHistoryMap (history : List UploadHistoryEntry) :
    List (List Char × HistInfo) :=
  history.foldl
    (fun m h =>
      match lookup m h.fileId with
      | none => mapSet m h.fileId ⟨1, h.timestamp⟩
      | some e => mapSet m h.fileId ⟨e.count + 1, max e.lastTs h.timestamp⟩)
    []

def ONE_DAY : ℝ := 24 * 60 * 60 * 1000

/-- `Math.max(0.1, 1.0 - daysAgo / 90)` (src/background.ts line 179). -/
noncomputable def recencyBoost (daysAgo : ℝ) : ℝ := max 0.1 (1.0 - daysAgo / 90)

/-- `computePathNameScore` from src/background.ts: fraction of path tokens that
occur in the query's token set. -/
noncomputable def computePathNameScore (filePath : List Char) (context : List Char) : ℝ :=
  let pathTokens := tokenize (filePath.map (fun c =>
    if c = '/' ∨ c = '\\' ∨ c = '.' ∨ c = '_' ∨ c = '-' then ' ' else c))
  let contextTokens := distinctTerms (tokenize context)
  if pathTokens.length = 0 ∨ contextTokens.length = 0 then 0
  else ((pathTokens.filter (fun t => decide (t ∈ contextTokens))).length : ℝ) /
    (pathTokens.length : ℝ)

structure RankedResult where
  record : VectorRecord
  score : ℝ
  historyCount : Nat

/-- The re-ranking map body of `handleMatch` (src/background.ts lines 169–192). -/
noncomputable def rescore (historyMap : List (List Char × HistInfo))
    (context : List Char) (now : ℝ) (r : SearchResult) : RankedResult :=
  let tfidfScore := r.score
  let historyBoost : ℝ :=
    match lookup historyMap r.record.id with
    | some hist => recencyBoost ((now - hist.lastTs) / ONE_DAY)
    | none => 0
  let historyCount : Nat :=
    match lookup historyMap r.record.id with
    | some hist => hist.count
    | none => 0
  let pathNameScore := computePathNameScore r.record.path context
  let finalScore :=
    if 0 < historyBoost then tfidfScore * 0.5 + historyBoost * 0.35 + pathNameScore * 0.15
    else tfidfScore * 0.75 + pathNameScore * 0.25
  ⟨r.record, finalScore, historyCount⟩

structure MatchResultItem where
  id : List Char
  name : List Char
  path : List Char
  ftype : List Char
  score : ℝ
  historyCount : Nat

/-- `handleMatch` from src/background.ts, as a pure function of the vocabulary
model, the document store, the per-host upload history, the query context and
the current time.  The optional `accept` type filter is abstracted as a
predicate on records. -/
noncomputable def handleMatch (m : VocabModel) (store : List VectorRecord)
    (history : List UploadHistoryEntry) (context : List Char)
    (pass : VectorRecord → Bool) (now : ℝ) : List MatchResultItem :=
  let queryVec := vectorize (tokenize context) m
  if queryVec.length = 0 then []
  else
    let results := search store queryVec 15 pass
    let historyMap := buildHistoryMap history
    let ranked := results.map (rescore historyMap context now)
    let sorted := ranked.mergeSort (fun a b => decide (b.score ≤ a.score))
    let top := (sorted.take 5).filter (fun r => decide (0 < r.score))
    top.map (fun r =>
      ⟨r.record.id, r.record.name, r.record.path, r.record.ftype, r.score, r.historyCount⟩)

end Ranking

/-! ### Incremental indexer (src/scan.ts, `buildIndex`) -/

/-- A scanned file together with its extracted text (`DocEntry` in src/scan.ts;
for a changed-or-new file `text` is the `extractText` result, for an unchanged
file it is the stored preview). -/
structure DocEntry where
  path : List Char
  name : List Char
  ftype : List Char
  size : Nat
  lastModified : Int
  text : List Char
deriving DecidableEq

/-- Phase 1 of `buildIndex`: partition the enumerated files into changed-or-new
(`docs`) and unchanged (`unchangedDocs`, whose `text` is the stored
`textPreview`).  A file is unchanged when a stored record with its path exists
and both fingerprint components (size, lastModified) match. -/
def partitionDocs (files : List DocEntry) (store : List VectorRecord)
    (incremental : Bool) : List DocEntry × List DocEntry :=
  files.foldl
    (fun acc f =>
      if incremental then
        match store.find? (fun r => decide (r.id = f.path)) with
        | some ex =>
          if ex.size = f.size ∧ ex.lastModified = f.lastModified then
            (acc.1, acc.2 ++ [{ f with text := ex.textPreview }])
          else (acc.1 ++ [f], acc.2)
        | none => (acc.1 ++ [f], acc.2)
      else (acc.1 ++ [f], acc.2))
    ([], [])

/-- The ids deleted by the incremental pass: stored ids not present among the
currently enumerated paths. -/
def deletedIds (files : List DocEntry) (store : List VectorRecord) : List (List Char) :=
  (store.map (·.id)).filter (fun id => decide (id ∉ files.map (·.path)))

/-- `deleteById` from src/vectordb.ts: remove the record stored under a key. -/
def deleteById (store : List VectorRecord) (id : List Char) : List VectorRecord :=
  store.filter (fun r => decide (r.id ≠ id))

/-- `upsert` from src/vectordb.ts: keyed store put — replace the record with
the same id, or append. -/
def upsert : List VectorRecord → VectorRecord → List VectorRecord
  | [], r => [r]
  | x :: rest, r => if x.id = r.id then r :: rest else x :: upsert rest r

/-- What an indexing pass reports and leaves behind: the document store, the
vocabulary model, and the counts shown in the progress messages. -/
structure IndexResult where
  store : List VectorRecord
  model : VocabModel
  addedOrModified : Nat
  deleted : Nat

/-- `buildIndex` from src/scan.ts as a pure state transformation.  The file
enumeration and text extraction are supplied as the `files` input (each entry
carrying its extracted text); `store0` and `model0` are the document store and
the in-memory vocabulary model before the pass. -/
noncomputable def buildIndex (files : List DocEntry) (store0 : List VectorRecord)
    (model0 : VocabModel) (incremental : Bool) : IndexResult :=
  let part := partitionDocs files store0 incremental
  let docs := part.1
  let unchangedDocs := part.2
  let deleted := if incremental then deletedIds files store0 else []
  let store1 := deleted.foldl deleteById store0
  if incremental ∧ docs = [] ∧ deleted.length = 0 then
    ⟨store1, model0, 0, deleted.length⟩
  else
    let allDocs := docs ++ unchangedDocs
    let allTokens := allDocs.map (fun d => tokenize d.text)
    let model := buildVocabulary allTokens
    let store2 := if incremental then store1 else []
    let store3 := docs.enum.foldl
      (fun s p =>
        upsert s
          ⟨p.2.path, p.2.name, p.2.path, p.2.ftype, p.2.size, p.2.lastModified,
            vectorize (allTokens.getD p.1 []) model, p.2.text.take 100⟩)
      store2
    let store4 :=
      if incremental then
        unchangedDocs.enum.foldl
          (fun s p =>
            match store0.find? (fun r => decide (r.id = p.2.path)) with
            | some ex =>
              upsert s { ex with vector := vectorize (allTokens.getD (docs.length + p.1) []) model }
            | none => s)
          store3
      else store3
    ⟨store4, model, docs.length, deleted.length⟩

/-! ## Map lemmas -/

theorem lookup_mapSet {α β : Type} [DecidableEq α] (m : List (α × β)) (k x : α) (v : β) :
    lookup (mapSet m k v) x = if k = x then some v else lookup m x := by
  induction m with
  | nil => simp [mapSet, lookup]
  | cons p rest ih =>
    by_cases h1 : p.1 = k
    · subst h1
      by_cases h2 : p.1 = x <;> simp [mapSet, lookup, h2]
    · simp only [mapSet, h1, if_neg, not_false_iff]
      by_cases h2 : p.1 = x
      · have hkx : ¬ k = x := fun he => h1 (by rw [h2, he])
        simp [lookup, h2, hkx]
      · simp [lookup, h2, ih]

theorem mem_of_lookup_eq_some {α β : Type} [DecidableEq α] {m : List (α × β)} {k : α}
    {v : β} (h : lookup m k = some v) : (k, v) ∈ m := by
  induction m with
  | nil => simp [lookup] at h
  | cons p rest ih =>
    by_cases h1 : p.1 = k
    · simp only [lookup, h1, if_pos, Option.some.injEq] at h
      exact List.mem_cons.mpr (Or.inl (Prod.ext h1.symm h.symm))
    · simp only [lookup, h1, if_neg, not_false_iff] at h
      exact List.mem_cons_of_mem _ (ih h)

/-- Key lists of JavaScript maps: `mapSet` keeps existing keys and appends a
fresh one. -/
theorem keys_mapSet {α β : Type} [DecidableEq α] (m : List (α × β)) (k : α) (v : β) :
    (mapSet m k v).map (·.1) = if k ∈ m.map (·.1) then m.map (·.1) else m.map (·.1) ++ [k] := by
  induction m with
  | nil => simp [mapSet]
  | cons p rest ih =>
    by_cases h1 : p.1 = k
    · simp [mapSet, h1]
    · have : ¬ k = p.1 := fun he => h1 he.symm
      by_cases h2 : k ∈ rest.map (·.1) <;> simp [mapSet, h1, this, h2, ih]

theorem keysNodup_mapSet {α β : Type} [DecidableEq α] {m : List (α × β)} (k : α) (v : β)
    (h : (m.map (·.1)).Nodup) : ((mapSet m k v).map (·.1)).Nodup := by
  rw [keys_mapSet]
  by_cases h2 : k ∈ m.map (·.1)
  · simpa [h2]
  · simp only [h2, if_false]
    simpa [List.nodup_append, h2] using h

theorem mapSet_of_not_mem_keys {α β : Type} [DecidableEq α] {m : List (α × β)} {k : α}
    (v : β) (h : k ∉ m.map (·.1)) : mapSet m k v = m ++ [(k, v)] := by
  induction m with
  | nil => simp [mapSet]
  | cons p rest ih =>
    simp only [List.map_cons, List.mem_cons] at h
    push_neg at h
    have h1 : ¬ p.1 = k := fun he => h.1 he.symm
    simp [mapSet, h1, ih h.2]

/-- Under unique keys, membership in `mapSet m k v` is either the new pair or
an old pair whose key differs from `k`. -/
theorem mem_mapSet_of_keysNodup {α β : Type} [DecidableEq α] {m : List (α × β)} {k : α}
    {v : β} {q : α × β} (hnd : (m.map (·.1)).Nodup) (h : q ∈ mapSet m k v) :
    q = (k, v) ∨ (q ∈ m ∧ q.1 ≠ k) := by
  induction m with
  | nil =>
    simp only [mapSet, List.mem_singleton] at h
    exact Or.inl h
  | cons p rest ih =>
    simp only [List.map_cons, List.nodup_cons] at hnd
    by_cases h1 : p.1 = k
    · subst h1
      simp only [mapSet, if_pos] at h
      rcases List.mem_cons.mp h with h | h
      · exact Or.inl h
      · refine Or.inr ⟨List.mem_cons_of_mem _ h, fun he => ?_⟩
        exact hnd.1 (he ▸ List.mem_map_of_mem (·.1) h)
    · simp only [mapSet, h1, if_neg, not_false_iff] at h
      rcases List.mem_cons.mp h with h | h
      · subst h
        exact Or.inr ⟨List.mem_cons_self _ _, h1⟩
      · rcases ih hnd.2 h with h | h
        · exact Or.inl h
        · exact Or.inr ⟨List.mem_cons_of_mem _ h.1, h.2⟩

theorem lookup_eq_some_of_mem {α β : Type} [DecidableEq α] {m : List (α × β)}
    (hnd : (m.map (·.1)).Nodup) {q : α × β} (h : q ∈ m) : lookup m q.1 = some q.2 := by
  induction m with
  | nil => simp at h
  | cons p rest ih =>
    simp only [List.map_cons, List.nodup_cons] at hnd
    rcases List.mem_cons.mp h with h | h
    · simp [lookup, h]
    · have hne : ¬ p.1 = q.1 := fun he => hnd.1 (he ▸ List.mem_map_of_mem (·.1) h)
      simp [lookup, hne, ih hnd.2 h]

/-! ## Vectorizer lemmas -/

theorem length_foldl_vecset (voc : List (Token × Nat)) (f : Token × Nat → ℝ)
    (tf : List (Token × Nat)) :
    ∀ v : List ℝ,
      (tf.foldl
        (fun v p =>
          match lookup voc p.1 with
          | some idx => v.set idx (f p)
          | none => v)
        v).length = v.length := by
  induction tf with
  | nil => intro v; rfl
  | cons p rest ih =>
    intro v
    rw [List.foldl_cons, ih]
    cases lookup voc p.1 <;> simp

theorem vectorize_length_aux (tokens : List Token) (m : VocabModel) :
    (vectorize tokens m).length = getVocabSize m := by
  unfold vectorize getVocabSize
  by_cases h : m.vocabulary.length = 0
  · simp [h]
  · simp only [h, if_neg, not_false_iff]
    split
    · rw [List.length_map, length_foldl_vecset, List.length_replicate]
    · rw [length_foldl_vecset, List.length_replicate]

/-- C7: for every token sequence, `vectorize` returns a vector whose length is
the current vocabulary's term count; with an empty vocabulary it returns the
zero-length vector. -/
theorem vectorize_length (tokens : List Token) (m : VocabModel) :
    (vectorize tokens m).length = getVocabSize m
    ∧ (getVocabSize m = 0 → vectorize tokens m = []) := by
  refine ⟨vectorize_length_aux tokens m, fun h => ?_⟩
  have := vectorize_length_aux tokens m
  rw [h] at this
  exact List.length_eq_zero.mp this

/-- Witness for C7's empty-vocabulary clause at a concrete input. -/
theorem vectorize_length_witness : vectorize [['a']] ⟨[], []⟩ = [] :=
  (vectorize_length [['a']] ⟨[], []⟩).2 rfl

/-! ## Recency boost lemmas -/

theorem recencyBoost_floor (d : ℝ) : 0.1 ≤ recencyBoost d := le_max_left _ _

theorem recencyBoost_pos (d : ℝ) : 0 < recencyBoost d :=
  lt_of_lt_of_le (by norm_num) (recencyBoost_floor d)

theorem recencyBoost_antitone {d1 d2 : ℝ} (h : d1 ≤ d2) :
    recencyBoost d2 ≤ recencyBoost d1 := by
  unfold recencyBoost
  apply max_le_max le_rfl
  have : d1 / 90 ≤ d2 / 90 := by linarith
  linarith

/-- C5: the recency boost `max(0.1, 1 − daysSinceLastUse/90)` used by
`rescore` is monotonically non-increasing in the elapsed time and never drops
below the floor 0.1. -/
theorem recencyBoost_monotone_and_floor (d1 d2 : ℝ) (h : d1 ≤ d2) :
    recencyBoost d2 ≤ recencyBoost d1 ∧ 0.1 ≤ recencyBoost d1 :=
  ⟨recencyBoost_antitone h, recencyBoost_floor d1⟩

/-- Witness for C5 at the concrete elapsed times 0 and 1 day. -/
theorem recencyBoost_monotone_and_floor_witness :
    recencyBoost 1 ≤ recencyBoost 0 ∧ (0.1 : ℝ) ≤ recencyBoost 0 :=
  recencyBoost_monotone_and_floor 0 1 (by norm_num)

/-! ## Ranking pipeline lemmas -/

/-- C10: the match operation returns at most 5 results, all of them with
strictly positive fused scores, regardless of how many documents are stored. -/
theorem handleMatch_at_most_five (m : VocabModel) (store : List VectorRecord)
    (history : List UploadHistoryEntry) (context : List Char)
    (pass : VectorRecord → Bool) (now : ℝ) :
    (handleMatch m store history context pass now).length ≤ 5
    ∧ ∀ r ∈ handleMatch m store history context pass now, 0 < r.score := by
  by_cases h : (vectorize (tokenize context) m).length = 0
  · have he : handleMatch m store history context pass now = [] := by
      simp [handleMatch, h]
    simp [he]
  · have he : handleMatch m store history context pass now =
        (((((search store (vectorize (tokenize context) m) 15 pass).map
              (rescore (buildHistoryMap history) context now)).mergeSort
            (fun a b => decide (b.score ≤ a.score))).take 5).filter
          (fun r => decide (0 < r.score))).map
        (fun r =>
          ⟨r.record.id, r.record.name, r.record.path, r.record.ftype, r.score,
            r.historyCount⟩) := by
      simp [handleMatch, h]
    rw [he]
    constructor
    · simp only [List.length_map]
      refine le_trans (List.length_filter_le _ _) ?_
      rw [List.length_take]
      exact min_le_left _ _
    · intro r hr
      simp only [List.mem_map] at hr
      obtain ⟨x, hx, rfl⟩ := hr
      simp only [List.mem_filter] at hx
      exact of_decide_eq_true hx.2

theorem lookup_buildHistoryMap_isSome (history : List UploadHistoryEntry) (id : List Char) :
    (lookup (buildHistoryMap history) id).isSome ↔ id ∈ history.map (·.fileId) := by
  suffices aux : ∀ (l : List UploadHistoryEntry) (m0 : List (List Char × HistInfo)),
      (lookup (l.foldl
        (fun m h =>
          match lookup m h.fileId with
          | none => mapSet m h.fileId ⟨1, h.timestamp⟩
          | some e => mapSet m h.fileId ⟨e.count + 1, max e.lastTs h.timestamp⟩)
        m0) id).isSome
      ↔ (lookup m0 id).isSome ∨ id ∈ l.map (·.fileId) by
    simpa [buildHistoryMap, lookup] using aux history []
  intro l
  induction l with
  | nil => intro m0; simp
  | cons h0 rest ih =>
    intro m0
    rw [List.foldl_cons, ih]
    have hstep :
        (lookup
          (match lookup m0 h0.fileId with
            | none => mapSet m0 h0.fileId ⟨1, h0.timestamp⟩
            | some e => mapSet m0 h0.fileId ⟨e.count + 1, max e.lastTs h0.timestamp⟩)
          id).isSome
        ↔ h0.fileId = id ∨ (lookup m0 id).isSome := by
      cases hl : lookup m0 h0.fileId <;>
        · simp only [lookup_mapSet]
          by_cases hid : h0.fileId = id <;> simp [hid]
    rw [hstep]
    simp only [List.map_cons, List.mem_cons]
    constructor
    · rintro ((h | h) | h)
      · exact Or.inr (Or.inl h.symm)
      · exact Or.inl h
      · exact Or.inr (Or.inr h)
    · rintro (h | h | h)
      · exact Or.inl (Or.inr h)
      · exact Or.inl (Or.inl h.symm)
      · exact Or.inr h

/-- C4: the fused score uses the weights 0.5/0.35/0.15 exactly when the history
map holds an entry for the document, and 0.75/0.25 otherwise; the history map
holds an entry exactly when at least one history entry for the current site
references the document. -/
theorem rescore_fused_weights (history : List UploadHistoryEntry) (context : List Char)
    (now : ℝ) (r : SearchResult) :
    (match lookup (buildHistoryMap history) r.record.id with
      | some hist =>
        (rescore (buildHistoryMap history) context now r).score =
          r.score * 0.5 + recencyBoost ((now - hist.lastTs) / ONE_DAY) * 0.35 +
            computePathNameScore r.record.path context * 0.15
      | none =>
        (rescore (buildHistoryMap history) context now r).score =
          r.score * 0.75 + computePathNameScore r.record.path context * 0.25)
    ∧ ((lookup (buildHistoryMap history) r.record.id).isSome ↔
        r.record.id ∈ history.map (·.fileId)) := by
  refine ⟨?_, lookup_buildHistoryMap_isSome history r.record.id⟩
  cases hl : lookup (buildHistoryMap history) r.record.id with
  | some hist =>
    have hpos : 0 < recencyBoost ((now - hist.lastTs) / ONE_DAY) := recencyBoost_pos _
    simp [rescore, hl, hpos]
  | none => simp [rescore, hl]

/-- C1: if the query context vectorizes to a zero-length vector (in particular
when the vocabulary is empty) or to a vector of zero norm (in particular when
every query token is out of vocabulary), the match operation returns the empty
result list. -/
theorem handleMatch_empty_on_zero_query (m : VocabModel) (store : List VectorRecord)
    (history : List UploadHistoryEntry) (context : List Char)
    (pass : VectorRecord → Bool) (now : ℝ)
    (h : (vectorize (tokenize context) m).length = 0
      ∨ ∀ x ∈ vectorize (tokenize context) m, x = 0) :
    handleMatch m store history context pass now = [] := by
  by_cases hl : (vectorize (tokenize context) m).length = 0
  · simp [handleMatch, hl]
  · have hz : ∀ x ∈ vectorize (tokenize context) m, x = 0 := h.resolve_left hl
    have hnorm : ((vectorize (tokenize context) m).map (fun x => x * x)).sum = 0 := by
      apply List.sum_eq_zero
      intro y hy
      simp only [List.mem_map] at hy
      obtain ⟨x, hx, rfl⟩ := hy
      rw [hz x hx]
      ring
    have hsearch : search store (vectorize (tokenize context) m) 15 pass = [] := by
      simp only [search]
      rw [List.filter_eq_nil_iff]
      intro a ha
      have ha2 : a ∈ ((store.filter pass).map
          fun r => (⟨r, cosine (vectorize (tokenize context) m) r.vector⟩ : SearchResult)) :=
        ((List.mergeSort_perm _ _).mem_iff).mp (List.mem_of_mem_take ha)
      simp only [List.mem_map] at ha2
      obtain ⟨rr, _, rfl⟩ := ha2
      simp [cosine, hnorm]
    simp [handleMatch, hl, hsearch]

/-- Witness for C1: with an empty vocabulary model, a match request returns no
results. -/
theorem handleMatch_empty_on_zero_query_witness :
    handleMatch ⟨[], []⟩ [] [] ['a'] (fun _ => true) 0 = [] :=
  handleMatch_empty_on_zero_query ⟨[], []⟩ [] [] ['a'] (fun _ => true) 0 (Or.inl rfl)

/-! ## Tokenizer lemmas -/

theorem mem_asciiRunsAux : ∀ (l cur : List Char), (∀ c ∈ cur, isAsciiAlphanum c) →
    ∀ t ∈ asciiRunsAux l cur, ∀ c ∈ t, isAsciiAlphanum c := by
  intro l
  induction l with
  | nil =>
    intro cur hcur t ht c hc
    by_cases h : cur = []
    · simp [asciiRunsAux, h] at ht
    · simp only [asciiRunsAux, h, if_neg, not_false_iff, List.mem_singleton] at ht
      subst ht
      exact hcur c (List.mem_reverse.mp hc)
  | cons x xs ih =>
    intro cur hcur t ht c hc
    by_cases hx : isAsciiAlphanum x
    · simp only [asciiRunsAux, hx, if_pos] at ht
      refine ih (x :: cur) ?_ t ht c hc
      intro d hd
      rcases List.mem_cons.mp hd with h | h
      · exact h ▸ hx
      · exact hcur d h
    · by_cases h : cur = []
      · rw [asciiRunsAux, if_neg hx, if_pos h, List.nil_append] at ht
        exact ih [] (by simp) t ht c hc
      · rw [asciiRunsAux, if_neg hx, if_neg h, List.singleton_append] at ht
        rcases List.mem_cons.mp ht with ht | ht
        · subst ht
          exact hcur c (List.mem_reverse.mp hc)
        · exact ih [] (by simp) t ht c hc

theorem mem_asciiRuns {l : List Char} {t : Token} (ht : t ∈ asciiRuns l) :
    ∀ c ∈ t, isAsciiAlphanum c :=
  mem_asciiRunsAux l [] (by simp) t ht

theorem isCJK_not_alnum {c : Char} (h : isCJK c) : ¬ isAsciiAlphanum c = true := by
  simp only [isCJK, Bool.or_eq_true, Bool.and_eq_true, decide_eq_true_eq] at h
  simp only [isAsciiAlphanum, Bool.or_eq_true, Bool.and_eq_true, decide_eq_true_eq]
  omega

theorem mem_cjkBigrams_iff : ∀ (l : List Char) (a b : Char),
    [a, b] ∈ cjkBigrams l ↔ ∃ pre post, l = pre ++ a :: b :: post := by
  intro l
  induction l with
  | nil =>
    intro a b
    constructor
    · intro h
      simp [cjkBigrams] at h
    · rintro ⟨pre, post, h⟩
      have := congrArg List.length h
      simp [List.length_append] at this
      omega
  | cons x xs ih =>
    intro a b
    cases xs with
    | nil =>
      constructor
      · intro h
        simp [cjkBigrams] at h
      · rintro ⟨pre, post, h⟩
        have := congrArg List.length h
        simp [List.length_append] at this
        omega
    | cons y ys =>
      constructor
      · intro h
        rcases List.mem_cons.mp h with h | h
        · simp only [List.cons.injEq] at h
          obtain ⟨h1, h2, -⟩ := h
          refine ⟨[], ys, ?_⟩
          rw [h1, h2]
          simp
        · obtain ⟨pre, post, hsplit⟩ := (ih a b).mp h
          exact ⟨x :: pre, post, by rw [List.cons_append, ← hsplit]⟩
      · rintro ⟨pre, post, h⟩
        cases pre with
        | nil =>
          simp only [List.nil_append, List.cons.injEq] at h
          rw [cjkBigrams, h.1, h.2.1]
          exact List.mem_cons_self _ _
        | cons p ps =>
          simp only [List.cons_append, List.cons.injEq] at h
          refine List.mem_cons_of_mem _ ((ih a b).mpr ⟨ps, post, h.2⟩)

theorem cjkBigrams_subset_cons (x : Char) (l : List Char) :
    ∀ p ∈ cjkBigrams l, p ∈ cjkBigrams (x :: l) := by
  cases l with
  | nil => simp [cjkBigrams]
  | cons y ys =>
    intro p hp
    exact List.mem_cons_of_mem _ hp

theorem specAdjacent_subset_cjkBigrams : ∀ (l : List Char),
    ∀ p ∈ specAdjacentCJKBigrams l, p ∈ cjkBigrams (l.filter isCJK) := by
  intro l
  induction l with
  | nil => simp [specAdjacentCJKBigrams]
  | cons x xs ih =>
    cases xs with
    | nil => simp [specAdjacentCJKBigrams]
    | cons y ys =>
      intro p hp
      simp only [specAdjacentCJKBigrams, List.mem_append] at hp
      rcases hp with hp | hp
      · by_cases hxy : isCJK x && isCJK y
        · simp only [hxy, if_pos, List.mem_singleton] at hp
          subst hp
          have hx : isCJK x := (Bool.and_eq_true _ _ ▸ hxy).1
          have hy : isCJK y := (Bool.and_eq_true _ _ ▸ hxy).2
          rw [List.filter_cons_of_pos hx, List.filter_cons_of_pos hy, cjkBigrams]
          exact List.mem_cons_self _ _
        · simp [hxy] at hp
      · have hsub := ih p hp
        by_cases hx : isCJK x
        · rw [List.filter_cons_of_pos hx]
          exact cjkBigrams_subset_cons x _ p hsub
        · rw [List.filter_cons_of_neg (by simpa using hx)]
          exact hsub

theorem char_toNat_ofNat {n : Nat} (h : n.isValidChar) : (Char.ofNat n).toNat = n := by
  unfold Char.ofNat
  rw [dif_pos h]
  rfl

theorem toLower_idem (c : Char) : c.toLower.toLower = c.toLower := by
  unfold Char.toLower
  by_cases h : c.toNat ≥ 65 ∧ c.toNat ≤ 90
  · rw [if_pos h]
    have hv : (c.toNat + 32).isValidChar := by
      left
      simp only [UInt32.isValidChar, Nat.isValidChar] at *
      omega
    rw [char_toNat_ofNat hv, if_neg (by omega)]
  · rw [if_neg h, if_neg h]

theorem normalize_map_toLower (text : List Char) :
    normalize (text.map Char.toLower) = normalize text := by
  unfold normalize
  rw [List.map_map]
  congr 1
  apply List.map_congr_left
  intro c _
  exact toLower_idem c

/-- A maximal alphanumeric run being consumed is emitted (with whatever prefix
is already accumulated) once a non-alphanumeric boundary or the end follows. -/
theorem asciiRunsAux_run_mem (t : List Char) :
    ∀ (cur post : List Char), t ≠ [] → (∀ c ∈ t, isAsciiAlphanum c) →
      (post = [] ∨ ∃ d ds, post = d :: ds ∧ ¬ isAsciiAlphanum d) →
      (cur.reverse ++ t) ∈ asciiRunsAux (t ++ post) cur := by
  induction t with
  | nil => intro cur post h _ _; exact absurd rfl h
  | cons c t2 ih =>
    intro cur post _ hall hpost
    rw [List.cons_append, asciiRunsAux, if_pos (hall c (List.mem_cons_self _ _))]
    by_cases ht2 : t2 = []
    · subst ht2
      simp only [List.nil_append]
      rcases hpost with hpost | ⟨d, ds, hpost, hd⟩
      · subst hpost
        rw [asciiRunsAux]
        simp
      · subst hpost
        rw [asciiRunsAux, if_neg hd]
        simp
    · have := ih (c :: cur) post ht2 (fun x hx => hall x (List.mem_cons_of_mem _ hx)) hpost
      simpa [List.append_assoc] using this

/-- A prefix ending in a non-alphanumeric character does not disturb the runs
extracted from the rest of the text. -/
theorem asciiRunsAux_append_boundary (pre0 : List Char) :
    ∀ (d : Char) (cur l : List Char), ¬ isAsciiAlphanum d →
      ∀ x ∈ asciiRunsAux l [], x ∈ asciiRunsAux ((pre0 ++ [d]) ++ l) cur := by
  induction pre0 with
  | nil =>
    intro d cur l hd x hx
    simp only [List.nil_append, List.cons_append]
    rw [asciiRunsAux, if_neg hd]
    exact List.mem_append.mpr (Or.inr hx)
  | cons p pre2 ih =>
    intro d cur l hd x hx
    simp only [List.cons_append]
    rw [asciiRunsAux]
    by_cases hp : isAsciiAlphanum p
    · rw [if_pos hp]
      exact ih d (p :: cur) l hd x hx
    · rw [if_neg hp]
      exact List.mem_append.mpr (Or.inr (ih d [] l hd x hx))

/-- C9 (amended): `tokenize` lower-cases the input (it is insensitive to ASCII
case), emits every maximal run of ASCII alphanumerics of the normalized input
as a token, emits each CJK character of the normalized input as a
single-character token, and emits one bigram for each pair of *consecutive
elements of the extracted CJK character subsequence* — so every pair of CJK
characters adjacent in the input yields a bigram, but a bigram is also formed
from two CJK characters separated only by non-CJK text. -/
theorem tokenize_cjk_bigram_characterization (text : List Char) :
    tokenize (text.map Char.toLower) = tokenize text
    ∧ (∀ pre t post, normalize text = pre ++ t ++ post → t ≠ [] →
        (∀ c ∈ t, isAsciiAlphanum c) →
        (pre = [] ∨ ∃ pre0 d, pre = pre0 ++ [d] ∧ ¬ isAsciiAlphanum d) →
        (post = [] ∨ ∃ d ds, post = d :: ds ∧ ¬ isAsciiAlphanum d) →
        t ∈ tokenize text)
    ∧ (∀ c ∈ normalize text, isCJK c → [c] ∈ tokenize text)
    ∧ (∀ p ∈ specAdjacentCJKBigrams (normalize text), p ∈ tokenize text)
    ∧ ∀ a b : Char, isCJK a → isCJK b →
        ([a, b] ∈ tokenize text ↔
          ∃ pre post, (normalize text).filter isCJK = pre ++ a :: b :: post) := by
  refine ⟨?_, ?_, ?_, ?_, ?_⟩
  · unfold tokenize
    rw [normalize_map_toLower]
  · intro pre t post hsplit hne hall hpre hpost
    have h1 : t ∈ asciiRunsAux (t ++ post) [] := by
      have := asciiRunsAux_run_mem t [] post hne hall hpost
      simpa using this
    have h2 : t ∈ asciiRuns (normalize text) := by
      rcases hpre with hpre | ⟨pre0, d, hpre, hd⟩
      · rw [asciiRuns, hsplit, hpre, List.nil_append]
        exact h1
      · rw [asciiRuns, hsplit, hpre]
        have := asciiRunsAux_append_boundary pre0 d [] (t ++ post) hd t h1
        simpa [List.append_assoc] using this
    unfold tokenize
    exact List.mem_append.mpr (Or.inl (List.mem_append.mpr (Or.inl h2)))
  · intro c hc hcjk
    have hmem : c ∈ (normalize text).filter isCJK := List.mem_filter.mpr ⟨hc, hcjk⟩
    unfold tokenize
    exact List.mem_append.mpr (Or.inl (List.mem_append.mpr
      (Or.inr (List.mem_map_of_mem _ hmem))))
  · intro p hp
    have h1 := specAdjacent_subset_cjkBigrams (normalize text) p hp
    unfold tokenize
    exact List.mem_append.mpr (Or.inr h1)
  · intro a b ha hb
    constructor
    · intro h
      unfold tokenize at h
      rcases List.mem_append.mp h with h | h
      · rcases List.mem_append.mp h with h | h
        · exact absurd (mem_asciiRuns h a (by simp)) (isCJK_not_alnum ha)
        · exfalso
          simp only [List.mem_map] at h
          obtain ⟨c, _, hc⟩ := h
          exact absurd (congrArg List.length hc) (by simp)
      · exact (mem_cjkBigrams_iff _ a b).mp h
    · intro hex
      unfold tokenize
      exact List.mem_append.mpr (Or.inr ((mem_cjkBigrams_iff _ a b).mpr hex))

/-- Witness for C9: in the input `a中文` the run `a`, the single CJK characters
and the bigram of the adjacent pair `中文` are all emitted. -/
theorem tokenize_cjk_bigram_characterization_witness :
    ['a'] ∈ tokenize ['a', '中', '文']
    ∧ ['中'] ∈ tokenize ['a', '中', '文']
    ∧ ['中', '文'] ∈ tokenize ['a', '中', '文'] :=
  ⟨(tokenize_cjk_bigram_characterization ['a', '中', '文']).2.1 [] ['a'] ['中', '文']
      (by decide) (by decide) (by decide) (Or.inl rfl)
      (Or.inr ⟨'中', ['文'], rfl, by decide⟩),
    (tokenize_cjk_bigram_characterization ['a', '中', '文']).2.2.1 '中' (by decide) (by decide),
    (tokenize_cjk_bigram_characterization ['a', '中', '文']).2.2.2.1 ['中', '文'] (by decide)⟩

/-- Counterexample to C9 as stated: in the input `中a文` the characters `中`
and `文` are separated by other text (no adjacent CJK pair exists at all), yet
the bigram token `中文` is emitted. -/
theorem tokenize_cjk_bigram_counterexample :
    ['中', '文'] ∈ tokenize ['中', 'a', '文']
    ∧ specAdjacentCJKBigrams (normalize ['中', 'a', '文']) = [] := by
  constructor
  · decide
  · decide

/-! ## Vocabulary lemmas: document frequencies and idf weights -/

theorem distinctTerms_nodup (doc : List Token) : (distinctTerms doc).Nodup := by
  suffices aux : ∀ (l : List Token) (acc : List Token), acc.Nodup →
      (l.foldl (fun acc t => if t ∈ acc then acc else acc ++ [t]) acc).Nodup by
    exact aux doc [] List.nodup_nil
  intro l
  induction l with
  | nil => intro acc h; exact h
  | cons t ts ih =>
    intro acc h
    rw [List.foldl_cons]
    by_cases ht : t ∈ acc
    · simpa [ht] using ih acc h
    · refine ih _ ?_
      simp only [ht, if_neg, not_false_iff]
      simp [List.nodup_append, h, ht]

theorem inner_fold_keysNodup (terms : List Token) :
    ∀ m : List (Token × Nat), (m.map (·.1)).Nodup →
      (((terms.foldl (fun df t => mapSet df t ((lookup df t).getD 0 + 1)) m).map (·.1)).Nodup) := by
  induction terms with
  | nil => intro m h; exact h
  | cons t ts ih =>
    intro m h
    rw [List.foldl_cons]
    exact ih _ (keysNodup_mapSet _ _ h)

theorem inner_fold_bound (terms : List Token) (k : Nat) :
    ∀ m : List (Token × Nat), (m.map (·.1)).Nodup → terms.Nodup →
      (∀ p ∈ m, p.2 ≤ k + 1) → (∀ p ∈ m, p.1 ∈ terms → p.2 ≤ k) →
      ∀ p ∈ terms.foldl (fun df t => mapSet df t ((lookup df t).getD 0 + 1)) m, p.2 ≤ k + 1 := by
  induction terms with
  | nil => intro m _ _ hb1 _ p hp; exact hb1 p hp
  | cons t ts ih =>
    intro m hnd hndts hb1 hb2 p hp
    rw [List.foldl_cons] at hp
    refine ih _ (keysNodup_mapSet _ _ hnd) hndts.of_cons ?_ ?_ p hp
    · intro q hq
      rcases mem_mapSet_of_keysNodup hnd hq with h | h
      · subst h
        cases hl : lookup m t with
        | none => simp [hl]
        | some c =>
          have hc : c ≤ k := hb2 (t, c) (mem_of_lookup_eq_some hl) (List.mem_cons_self _ _)
          simp [hl]
          omega
      · exact hb1 q h.1
    · intro q hq hqts
      rcases mem_mapSet_of_keysNodup hnd hq with h | h
      · exfalso
        have : q.1 = t := by rw [h]
        exact (List.nodup_cons.mp hndts).1 (this ▸ hqts)
      · exact hb2 q h.1 (List.mem_cons_of_mem _ hqts)

theorem dfMap_fold_aux (docs : List (List Token)) :
    ∀ (m : List (Token × Nat)) (k : Nat), (m.map (·.1)).Nodup → (∀ p ∈ m, p.2 ≤ k) →
      (((docs.foldl
          (fun df doc =>
            (distinctTerms doc).foldl (fun df t => mapSet df t ((lookup df t).getD 0 + 1)) df)
          m).map (·.1)).Nodup)
      ∧ ∀ p ∈ docs.foldl
          (fun df doc =>
            (distinctTerms doc).foldl (fun df t => mapSet df t ((lookup df t).getD 0 + 1)) df)
          m, p.2 ≤ k + docs.length := by
  induction docs with
  | nil => intro m k h1 h2; exact ⟨h1, by simpa using h2⟩
  | cons d ds ih =>
    intro m k h1 h2
    rw [List.foldl_cons]
    have hnd2 := inner_fold_keysNodup (distinctTerms d) m h1
    have hb2 := inner_fold_bound (distinctTerms d) k m h1 (distinctTerms_nodup d)
      (fun p hp => le_trans (h2 p hp) (Nat.le_succ k)) (fun p hp _ => h2 p hp)
    obtain ⟨hA, hB⟩ := ih _ (k + 1) hnd2 hb2
    refine ⟨hA, fun p hp => ?_⟩
    have := hB p hp
    simp only [List.length_cons]
    omega

theorem dfMap_keysNodup (docs : List (List Token)) : ((dfMap docs).map (·.1)).Nodup :=
  (dfMap_fold_aux docs [] 0 (by simp) (by simp)).1

theorem dfMap_counts_le (docs : List (List Token)) :
    ∀ p ∈ dfMap docs, p.2 ≤ docs.length := by
  intro p hp
  have := (dfMap_fold_aux docs [] 0 (by simp) (by simp)).2 p hp
  simpa using this

/-- C8: every idf weight assigned by `buildVocabulary` is strictly positive,
for any corpus size and any document frequency (the add-one smoothing keeps the
log argument at least 1). -/
theorem buildVocabulary_idf_pos (docs : List (List Token)) (t : Token) (w : ℝ)
    (h : (t, w) ∈ (buildVocabulary docs).idfValues) : 0 < w := by
  simp only [buildVocabulary, List.mem_map] at h
  obtain ⟨p, hp, heq⟩ := h
  have hw : w = Real.log (((docs.length : ℝ) + 1) / ((p.2 : ℝ) + 1)) + 1 := by
    have := congrArg Prod.snd heq
    simpa using this.symm
  have hc : p.2 ≤ docs.length := dfMap_counts_le docs p hp
  have h1 : (1 : ℝ) ≤ ((docs.length : ℝ) + 1) / ((p.2 : ℝ) + 1) := by
    rw [le_div_iff₀ (by positivity)]
    have hcast : (p.2 : ℝ) ≤ (docs.length : ℝ) := by exact_mod_cast hc
    linarith
  have h2 : 0 ≤ Real.log (((docs.length : ℝ) + 1) / ((p.2 : ℝ) + 1)) := Real.log_nonneg h1
  rw [hw]
  linarith

/-- Witness for C8 on the one-document corpus `[["a"]]`. -/
theorem buildVocabulary_idf_pos_witness :
    ∃ t w, (t, w) ∈ (buildVocabulary [[['a']]]).idfValues ∧ 0 < w := by
  have h : ((['a'] : Token), Real.log (((1 : ℝ) + 1) / ((1 : ℝ) + 1)) + 1) ∈
      (buildVocabulary [[['a']]]).idfValues := by
    simp [buildVocabulary, dfMap, distinctTerms, mapSet, lookup]
  exact ⟨_, _, h, buildVocabulary_idf_pos _ _ _ h⟩

/-! ## Incremental indexer: the no-change short-circuit -/

/-- C3: an incremental pass in which no file is new, modified or deleted
short-circuits, reports zero added-or-modified and zero deleted files, and
leaves the document store (all records and vectors) and the vocabulary model
unchanged. -/
theorem buildIndex_noop (files : List DocEntry) (store0 : List VectorRecord)
    (model0 : VocabModel)
    (h1 : (partitionDocs files store0 true).1 = [])
    (h2 : deletedIds files store0 = []) :
    buildIndex files store0 model0 true = ⟨store0, model0, 0, 0⟩ := by
  simp [buildIndex, h1, h2]

/-- Witness for C3: one enumerated file whose fingerprint matches the stored
record exactly. -/
theorem buildIndex_noop_witness :
    buildIndex [⟨['a'], ['a'], [], 1, 0, ['x']⟩]
        [⟨['a'], ['a'], ['a'], [], 1, 0, [], ['p']⟩] ⟨[], []⟩ true =
      ⟨[⟨['a'], ['a'], ['a'], [], 1, 0, [], ['p']⟩], ⟨[], []⟩, 0, 0⟩ :=
  buildIndex_noop _ _ _ (by decide) (by decide)

/-! ## Keyed-store lemmas: upsert, delete, and fold coverage -/

theorem mem_upsert {s : List VectorRecord} {x r : VectorRecord}
    (hnd : (s.map (·.id)).Nodup) (h : r ∈ upsert s x) :
    r = x ∨ (r ∈ s ∧ r.id ≠ x.id) := by
  induction s with
  | nil =>
    simp only [upsert, List.mem_singleton] at h
    exact Or.inl h
  | cons y ys ih =>
    simp only [List.map_cons, List.nodup_cons] at hnd
    by_cases hid : y.id = x.id
    · simp only [upsert, hid, if_pos] at h
      rcases List.mem_cons.mp h with h | h
      · exact Or.inl h
      · refine Or.inr ⟨List.mem_cons_of_mem _ h, fun he => ?_⟩
        exact hnd.1 (hid ▸ he ▸ List.mem_map_of_mem (·.id) h)
    · simp only [upsert, hid, if_neg, not_false_iff] at h
      rcases List.mem_cons.mp h with h | h
      · exact Or.inr ⟨h ▸ List.mem_cons_self y ys, h ▸ hid⟩
      · rcases ih hnd.2 h with h | h
        · exact Or.inl h
        · exact Or.inr ⟨List.mem_cons_of_mem _ h.1, h.2⟩

theorem mem_ids_upsert {s : List VectorRecord} {x : VectorRecord} {a : List Char}
    (h : a ∈ (upsert s x).map (·.id)) : a ∈ s.map (·.id) ∨ a = x.id := by
  induction s with
  | nil =>
    simp only [upsert, List.map_cons, List.map_nil, List.mem_singleton] at h
    exact Or.inr h
  | cons y ys ih =>
    by_cases hid : y.id = x.id
    · simp only [upsert, hid, if_pos, List.map_cons, List.mem_cons] at h
      rcases h with h | h
      · exact Or.inr h
      · exact Or.inl (List.mem_cons_of_mem _ h)
    · simp only [upsert, hid, if_neg, not_false_iff, List.map_cons, List.mem_cons] at h
      rcases h with h | h
      · exact Or.inl (List.mem_cons.mpr (Or.inl h))
      · rcases ih h with h | h
        · exact Or.inl (List.mem_cons_of_mem _ h)
        · exact Or.inr h

theorem upsert_ids_nodup {s : List VectorRecord} {x : VectorRecord}
    (hnd : (s.map (·.id)).Nodup) : ((upsert s x).map (·.id)).Nodup := by
  induction s with
  | nil => simp [upsert]
  | cons y ys ih =>
    simp only [List.map_cons, List.nodup_cons] at hnd
    by_cases hid : y.id = x.id
    · simp only [upsert, hid, if_pos, List.map_cons, List.nodup_cons]
      exact ⟨fun hmem => hnd.1 (hid ▸ hmem), hnd.2⟩
    · simp only [upsert, hid, if_neg, not_false_iff, List.map_cons, List.nodup_cons]
      refine ⟨fun hmem => ?_, ih hnd.2⟩
      rcases mem_ids_upsert hmem with h | h
      · exact hnd.1 h
      · exact hid h

theorem mem_foldl_deleteById (ids : List (List Char)) :
    ∀ (s : List VectorRecord) (r : VectorRecord),
      r ∈ ids.foldl deleteById s ↔ (r ∈ s ∧ r.id ∉ ids) := by
  induction ids with
  | nil => intro s r; simp
  | cons i is ih =>
    intro s r
    rw [List.foldl_cons, ih]
    simp only [deleteById, List.mem_filter, decide_eq_true_eq, List.mem_cons]
    constructor
    · rintro ⟨⟨h1, h2⟩, h3⟩
      exact ⟨h1, fun hc => hc.elim h2 h3⟩
    · rintro ⟨h1, h2⟩
      exact ⟨⟨h1, fun hc => h2 (Or.inl hc)⟩, fun hc => h2 (Or.inr hc)⟩

theorem foldl_deleteById_ids_nodup (ids : List (List Char)) :
    ∀ (s : List VectorRecord), (s.map (·.id)).Nodup →
      ((ids.foldl deleteById s).map (·.id)).Nodup := by
  induction ids with
  | nil => intro s h; exact h
  | cons i is ih =>
    intro s h
    rw [List.foldl_cons]
    refine ih _ (List.Nodup.sublist ?_ h)
    exact List.Sublist.map (·.id) (List.filter_sublist s)

/-! ## Partition lemmas -/

theorem partitionDocs_true_eq (files : List DocEntry) (store : List VectorRecord) :
    partitionDocs files store true =
      files.foldl
        (fun acc f =>
          match store.find? (fun r => decide (r.id = f.path)) with
          | some ex =>
            if ex.size = f.size ∧ ex.lastModified = f.lastModified then
              (acc.1, acc.2 ++ [{ f with text := ex.textPreview }])
            else (acc.1 ++ [f], acc.2)
          | none => (acc.1 ++ [f], acc.2))
        ([], []) := by
  simp [partitionDocs]

theorem partition_fold_mono (store : List VectorRecord) (l : List DocEntry) :
    ∀ acc : List DocEntry × List DocEntry,
      (∀ d ∈ acc.1, d ∈ (l.foldl
        (fun acc f =>
          match store.find? (fun r => decide (r.id = f.path)) with
          | some ex =>
            if ex.size = f.size ∧ ex.lastModified = f.lastModified then
              (acc.1, acc.2 ++ [{ f with text := ex.textPreview }])
            else (acc.1 ++ [f], acc.2)
          | none => (acc.1 ++ [f], acc.2))
        acc).1)
      ∧ ∀ d ∈ acc.2, d ∈ (l.foldl
        (fun acc f =>
          match store.find? (fun r => decide (r.id = f.path)) with
          | some ex =>
            if ex.size = f.size ∧ ex.lastModified = f.lastModified then
              (acc.1, acc.2 ++ [{ f with text := ex.textPreview }])
            else (acc.1 ++ [f], acc.2)
          | none => (acc.1 ++ [f], acc.2))
        acc).2 := by
  induction l with
  | nil => intro acc; exact ⟨fun d hd => hd, fun d hd => hd⟩
  | cons f fs ih =>
    intro acc
    rw [List.foldl_cons]
    constructor
    · intro d hd
      cases hfind : store.find? (fun r => decide (r.id = f.path)) with
      | none =>
        have := (ih (acc.1 ++ [f], acc.2)).1 d (List.mem_append.mpr (Or.inl hd))
        simpa [hfind] using this
      | some ex =>
        by_cases hfp : ex.size = f.size ∧ ex.lastModified = f.lastModified
        · have := (ih (acc.1, acc.2 ++ [{ f with text := ex.textPreview }])).1 d hd
          simpa [hfind, hfp] using this
        · have := (ih (acc.1 ++ [f], acc.2)).1 d (List.mem_append.mpr (Or.inl hd))
          simpa [hfind, hfp] using this
    · intro d hd
      cases hfind : store.find? (fun r => decide (r.id = f.path)) with
      | none =>
        have := (ih (acc.1 ++ [f], acc.2)).2 d hd
        simpa [hfind] using this
      | some ex =>
        by_cases hfp : ex.size = f.size ∧ ex.lastModified = f.lastModified
        · have := (ih (acc.1, acc.2 ++ [{ f with text := ex.textPreview }])).2 d
            (List.mem_append.mpr (Or.inl hd))
          simpa [hfind, hfp] using this
        · have := (ih (acc.1 ++ [f], acc.2)).2 d hd
          simpa [hfind, hfp] using this

/-- Every enumerated file ends up, with its own path, either among the
changed-or-new docs or among the unchanged docs. -/
theorem partitionDocs_cover (files : List DocEntry) (store : List VectorRecord) :
    ∀ f ∈ files,
      (∃ d ∈ (partitionDocs files store true).1, d.path = f.path)
      ∨ ∃ d ∈ (partitionDocs files store true).2, d.path = f.path := by
  rw [partitionDocs_true_eq]
  suffices aux : ∀ (l : List DocEntry) (acc : List DocEntry × List DocEntry), ∀ f ∈ l,
      (∃ d ∈ (l.foldl
        (fun acc f =>
          match store.find? (fun r => decide (r.id = f.path)) with
          | some ex =>
            if ex.size = f.size ∧ ex.lastModified = f.lastModified then
              (acc.1, acc.2 ++ [{ f with text := ex.textPreview }])
            else (acc.1 ++ [f], acc.2)
          | none => (acc.1 ++ [f], acc.2))
        acc).1, d.path = f.path)
      ∨ ∃ d ∈ (l.foldl
        (fun acc f =>
          match store.find? (fun r => decide (r.id = f.path)) with
          | some ex =>
            if ex.size = f.size ∧ ex.lastModified = f.lastModified then
              (acc.1, acc.2 ++ [{ f with text := ex.textPreview }])
            else (acc.1 ++ [f], acc.2)
          | none => (acc.1 ++ [f], acc.2))
        acc).2, d.path = f.path by
    exact aux files ([], [])
  intro l
  induction l with
  | nil => intro acc f hf; simp at hf
  | cons f0 fs ih =>
    intro acc f hf
    rw [List.foldl_cons]
    rcases List.mem_cons.mp hf with hf | hf
    · subst hf
      cases hfind : store.find? (fun r => decide (r.id = f.path)) with
      | none =>
        left
        have hmono := (partition_fold_mono store fs (acc.1 ++ [f], acc.2)).1 f
          (List.mem_append.mpr (Or.inr (List.mem_singleton.mpr rfl)))
        exact ⟨f, by simpa [hfind] using hmono, rfl⟩
      | some ex =>
        by_cases hfp : ex.size = f.size ∧ ex.lastModified = f.lastModified
        · right
          have hmono := (partition_fold_mono store fs
            (acc.1, acc.2 ++ [{ f with text := ex.textPreview }])).2
            { f with text := ex.textPreview }
            (List.mem_append.mpr (Or.inr (List.mem_singleton.mpr rfl)))
          exact ⟨{ f with text := ex.textPreview }, by simpa [hfind, hfp] using hmono, rfl⟩
        · left
          have hmono := (partition_fold_mono store fs (acc.1 ++ [f], acc.2)).1 f
            (List.mem_append.mpr (Or.inr (List.mem_singleton.mpr rfl)))
          exact ⟨f, by simpa [hfind, hfp] using hmono, rfl⟩
    · cases hfind : store.find? (fun r => decide (r.id = f0.path)) with
      | none =>
        have := ih (acc.1 ++ [f0], acc.2) f hf
        simpa [hfind] using this
      | some ex =>
        by_cases hfp : ex.size = f0.size ∧ ex.lastModified = f0.lastModified
        · have := ih (acc.1, acc.2 ++ [{ f0 with text := ex.textPreview }]) f hf
          simpa [hfind, hfp] using this
        · have := ih (acc.1 ++ [f0], acc.2) f hf
          simpa [hfind, hfp] using this

/-- Every unchanged doc has a stored record found under its path. -/
theorem partitionDocs_unchanged_found (files : List DocEntry) (store : List VectorRecord) :
    ∀ d ∈ (partitionDocs files store true).2,
      ∃ ex, store.find? (fun r => decide (r.id = d.path)) = some ex := by
  rw [partitionDocs_true_eq]
  suffices aux : ∀ (l : List DocEntry) (acc : List DocEntry × List DocEntry),
      (∀ d ∈ acc.2, ∃ ex, store.find? (fun r => decide (r.id = d.path)) = some ex) →
      ∀ d ∈ (l.foldl
        (fun acc f =>
          match store.find? (fun r => decide (r.id = f.path)) with
          | some ex =>
            if ex.size = f.size ∧ ex.lastModified = f.lastModified then
              (acc.1, acc.2 ++ [{ f with text := ex.textPreview }])
            else (acc.1 ++ [f], acc.2)
          | none => (acc.1 ++ [f], acc.2))
        acc).2, ∃ ex, store.find? (fun r => decide (r.id = d.path)) = some ex by
    exact aux files ([], []) (by simp)
  intro l
  induction l with
  | nil => intro acc hacc d hd; exact hacc d hd
  | cons f0 fs ih =>
    intro acc hacc d hd
    rw [List.foldl_cons] at hd
    cases hfind : store.find? (fun r => decide (r.id = f0.path)) with
    | none =>
      simp only [hfind] at hd
      exact ih (acc.1 ++ [f0], acc.2) hacc d hd
    | some ex =>
      simp only [hfind] at hd
      by_cases hfp : ex.size = f0.size ∧ ex.lastModified = f0.lastModified
      · rw [if_pos hfp] at hd
        refine ih _ ?_ d hd
        intro e he
        rcases List.mem_append.mp he with he | he
        · exact hacc e he
        · rw [List.mem_singleton.mp he]
          exact ⟨ex, hfind⟩
      · rw [if_neg hfp] at hd
        exact ih (acc.1 ++ [f0], acc.2) hacc d hd

theorem foldl_upsertAll_ids_nodup {α : Type} (f : α → VectorRecord) (l : List α) :
    ∀ s : List VectorRecord, (s.map (·.id)).Nodup →
      ((l.foldl (fun s a => upsert s (f a)) s).map (·.id)).Nodup := by
  induction l with
  | nil => intro s h; exact h
  | cons a l ih =>
    intro s h
    rw [List.foldl_cons]
    exact ih _ (upsert_ids_nodup h)

theorem mem_foldl_upsertAll {α : Type} (f : α → VectorRecord) (l : List α) :
    ∀ (s : List VectorRecord) (r : VectorRecord), (s.map (·.id)).Nodup →
      r ∈ l.foldl (fun s a => upsert s (f a)) s →
      (∃ a ∈ l, r = f a) ∨ (r ∈ s ∧ ∀ a ∈ l, r.id ≠ (f a).id) := by
  induction l with
  | nil => intro s r _ h; exact Or.inr ⟨h, by simp⟩
  | cons a l ih =>
    intro s r hnd h
    rw [List.foldl_cons] at h
    rcases ih _ r (upsert_ids_nodup hnd) h with h1 | h1
    · obtain ⟨b, hb, hrb⟩ := h1
      exact Or.inl ⟨b, List.mem_cons_of_mem _ hb, hrb⟩
    · rcases mem_upsert hnd h1.1 with h2 | h2
      · exact Or.inl ⟨a, List.mem_cons_self _ _, h2⟩
      · refine Or.inr ⟨h2.1, fun b hb => ?_⟩
        rcases List.mem_cons.mp hb with hb | hb
        · rw [hb]; exact h2.2
        · exact h1.2 b hb

theorem foldl_upsertFind_ids_nodup {α : Type} (find : α → Option VectorRecord)
    (f : α → VectorRecord → VectorRecord) (l : List α) :
    ∀ s : List VectorRecord, (s.map (·.id)).Nodup →
      (((l.foldl
        (fun s a =>
          match find a with
          | some ex => upsert s (f a ex)
          | none => s)
        s).map (·.id)).Nodup) := by
  induction l with
  | nil => intro s h; exact h
  | cons a l ih =>
    intro s h
    rw [List.foldl_cons]
    cases hg : find a with
    | none => simpa [hg] using ih s h
    | some ex =>
      simp only [hg]
      exact ih _ (upsert_ids_nodup h)

theorem mem_foldl_upsertFind {α : Type} (find : α → Option VectorRecord)
    (f : α → VectorRecord → VectorRecord) (l : List α) :
    ∀ (s : List VectorRecord) (r : VectorRecord), (s.map (·.id)).Nodup →
      r ∈ l.foldl
        (fun s a =>
          match find a with
          | some ex => upsert s (f a ex)
          | none => s)
        s →
      (∃ a ∈ l, ∃ ex, find a = some ex ∧ r = f a ex) ∨
        (r ∈ s ∧ ∀ a ∈ l, ∀ ex, find a = some ex → r.id ≠ (f a ex).id) := by
  induction l with
  | nil => intro s r _ h; exact Or.inr ⟨h, by simp⟩
  | cons a l ih =>
    intro s r hnd h
    rw [List.foldl_cons] at h
    cases hg : find a with
    | none =>
      rw [hg] at h
      rcases ih s r hnd h with h1 | h1
      · obtain ⟨b, hb, hgb⟩ := h1
        exact Or.inl ⟨b, List.mem_cons_of_mem _ hb, hgb⟩
      · refine Or.inr ⟨h1.1, fun b hb ex hgb => ?_⟩
        rcases List.mem_cons.mp hb with hb | hb
        · rw [hb, hg] at hgb
          exact absurd hgb (by simp)
        · exact h1.2 b hb ex hgb
    | some ex0 =>
      rw [hg] at h
      rcases ih _ r (upsert_ids_nodup hnd) h with h1 | h1
      · obtain ⟨b, hb, hgb⟩ := h1
        exact Or.inl ⟨b, List.mem_cons_of_mem _ hb, hgb⟩
      · rcases mem_upsert hnd h1.1 with h2 | h2
        · exact Or.inl ⟨a, List.mem_cons_self _ _, ex0, hg, h2⟩
        · refine Or.inr ⟨h2.1, fun b hb ex hgb => ?_⟩
          rcases List.mem_cons.mp hb with hb | hb
          · subst hb
            rw [hg] at hgb
            injection hgb with hrec
            rw [← hrec]
            exact h2.2
          · exact h1.2 b hb ex hgb

set_option maxHeartbeats 2000000

/-- C2: after an incremental pass with at least one changed-or-new or deleted
file, the vocabulary model is rebuilt over the union of the changed-or-new
texts and the stored text previews of the unchanged files, and every record
left in the store carries a vector produced by `vectorize` against the rebuilt
model — in particular every stored vector's length equals the new vocabulary's
term count. -/
theorem buildIndex_incremental_revectorizes (files : List DocEntry)
    (store0 : List VectorRecord) (model0 : VocabModel)
    (hnd : (store0.map (·.id)).Nodup)
    (hch : (partitionDocs files store0 true).1 ≠ [] ∨ deletedIds files store0 ≠ []) :
    (buildIndex files store0 model0 true).model =
      buildVocabulary
        (((partitionDocs files store0 true).1 ++ (partitionDocs files store0 true).2).map
          (fun d => tokenize d.text))
    ∧ ∀ r ∈ (buildIndex files store0 model0 true).store,
        (∃ ts, r.vector = vectorize ts (buildIndex files store0 model0 true).model)
        ∧ r.vector.length = getVocabSize (buildIndex files store0 model0 true).model := by
  generalize hres : buildIndex files store0 model0 true = res
  simp only [buildIndex] at hres
  split at hres
  case isFalse h => exact absurd trivial h
  case isTrue h =>
    split at hres
    case isTrue h2 =>
      rcases hch with hch | hch
      · exact absurd h2.2.1 hch
      · exact absurd (List.length_eq_zero.mp h2.2.2) hch
    case isFalse h2 =>
      subst hres
      refine ⟨rfl, ?_⟩
      dsimp only
      set P1 := (partitionDocs files store0 true).1 with hP1
      set P2 := (partitionDocs files store0 true).2 with hP2
      set AT := (P1 ++ P2).map (fun d => tokenize d.text) with hAT
      set M := buildVocabulary AT with hM
      set S1 := List.foldl deleteById store0 (deletedIds files store0) with hS1
      intro r hr
      have hnd1 : (S1.map (·.id)).Nodup := by
        rw [hS1]
        exact foldl_deleteById_ids_nodup (deletedIds files store0) store0 hnd
      have hnd3 : (((P1.enum.foldl
          (fun s p => upsert s
            ⟨p.2.path, p.2.name, p.2.path, p.2.ftype, p.2.size, p.2.lastModified,
              vectorize (AT.getD p.1 []) M, p.2.text.take 100⟩)
          S1).map (·.id)).Nodup) :=
        foldl_upsertAll_ids_nodup _ _ _ hnd1
      rcases mem_foldl_upsertFind
          (fun p : Nat × DocEntry => List.find? (fun rr => decide (rr.id = p.2.path)) store0)
          (fun p ex =>
            ⟨ex.id, ex.name, ex.path, ex.ftype, ex.size, ex.lastModified,
              vectorize (AT.getD (P1.length + p.1) []) M, ex.textPreview⟩)
          P2.enum _ r hnd3 hr with hU | hU
      · obtain ⟨a, _, ex, _, hrx⟩ := hU
        subst hrx
        exact ⟨⟨_, rfl⟩, vectorize_length_aux _ _⟩
      · obtain ⟨hr3, havoidU⟩ := hU
        rcases mem_foldl_upsertAll
            (fun p : Nat × DocEntry =>
              (⟨p.2.path, p.2.name, p.2.path, p.2.ftype, p.2.size, p.2.lastModified,
                vectorize (AT.getD p.1 []) M, p.2.text.take 100⟩ : VectorRecord))
            P1.enum _ r hnd1 hr3 with hD | hD
        · obtain ⟨a, _, hrx⟩ := hD
          subst hrx
          exact ⟨⟨_, rfl⟩, vectorize_length_aux _ _⟩
        · obtain ⟨hr1, havoidD⟩ := hD
          exfalso
          rw [hS1] at hr1
          obtain ⟨hr0, hnotdel⟩ :=
            (mem_foldl_deleteById (deletedIds files store0) store0 r).mp hr1
          have hidmem : r.id ∈ store0.map (·.id) := List.mem_map_of_mem (·.id) hr0
          have hinpaths : r.id ∈ files.map (·.path) := by
            by_contra hno
            apply hnotdel
            simp only [deletedIds, List.mem_filter, decide_eq_true_eq]
            exact ⟨hidmem, hno⟩
          obtain ⟨f, hf, hfpath⟩ := List.mem_map.mp hinpaths
          rcases partitionDocs_cover files store0 f hf with ⟨d, hd, hdp⟩ | ⟨d, hd, hdp⟩
          · have hd2 : d ∈ P1.enum.map Prod.snd := by
              rw [List.enum_map_snd, hP1]
              exact hd
            obtain ⟨p, hp, hpd⟩ := List.mem_map.mp hd2
            apply havoidD p hp
            show r.id = p.2.path
            rw [← hfpath, ← hdp, hpd]
          · obtain ⟨ex, hfind⟩ := partitionDocs_unchanged_found files store0 d hd
            have hd2 : d ∈ P2.enum.map Prod.snd := by
              rw [List.enum_map_snd, hP2]
              exact hd
            obtain ⟨p, hp, hpd⟩ := List.mem_map.mp hd2
            have hfind2 : List.find? (fun rr => decide (rr.id = p.2.path)) store0 = some ex := by
              rw [hpd]
              exact hfind
            apply havoidU p hp ex hfind2
            have hps := List.find?_some hfind
            have hexid : ex.id = d.path := of_decide_eq_true hps
            show r.id = ex.id
            rw [← hfpath, ← hdp, hexid]

/-- Witness for C2: one new file indexed into an empty store. -/
theorem buildIndex_incremental_revectorizes_witness :
    (buildIndex [⟨['a'], ['a'], [], 1, 0, ['a']⟩] [] ⟨[], []⟩ true).model =
      buildVocabulary
        (((partitionDocs [⟨['a'], ['a'], [], 1, 0, ['a']⟩] [] true).1 ++
          (partitionDocs [⟨['a'], ['a'], [], 1, 0, ['a']⟩] [] true).2).map
          (fun d => tokenize d.text))
    ∧ ∀ r ∈ (buildIndex [⟨['a'], ['a'], [], 1, 0, ['a']⟩] [] ⟨[], []⟩ true).store,
        (∃ ts, r.vector = vectorize ts
          (buildIndex [⟨['a'], ['a'], [], 1, 0, ['a']⟩] [] ⟨[], []⟩ true).model)
        ∧ r.vector.length =
          getVocabSize (buildIndex [⟨['a'], ['a'], [], 1, 0, ['a']⟩] [] ⟨[], []⟩ true).model :=
  buildIndex_incremental_revectorizes _ _ _ (by simp) (Or.inl (by decide))

set_option maxHeartbeats 1000000

theorem set_take_succ {α : Type} (A : List α) (k : Nat) (t : α) (h : k < A.length) :
    (A.set k t).take (k + 1) = A.take k ++ [t] := by
  rw [List.take_succ]
  have h1 : List.take k (A.set k t) = List.take k A := by
    apply List.ext_getElem
    · simp [Nat.min_def]
    · intro i hi1 hi2
      simp only [List.length_take] at hi1
      simp only [List.getElem_take]
      rw [List.getElem_set_ne]
      omega
  simp [h1, List.getElem?_set_self, h]

theorem export_fold (v : Token → ℝ) :
    ∀ (ts : List Token) (k : Nat) (A : List Token) (B : List ℝ),
      A.length = k + ts.length → B.length = k + ts.length →
      ((ts.enumFrom k).map (fun q => (q.2, q.1))).foldl
        (fun acc p => (acc.1.set p.2 p.1, acc.2.set p.2 (v p.1))) (A, B)
      = (A.take k ++ ts, B.take k ++ ts.map v) := by
  intro ts
  induction ts with
  | nil =>
    intro k A B hA hB
    simp only [List.length_nil, Nat.add_zero] at hA hB
    subst hA
    rw [List.enumFrom_nil, List.map_nil, List.foldl_nil, List.take_length, ← hB,
      List.take_length]
    simp
  | cons t ts ih =>
    intro k A B hA hB
    rw [List.enumFrom_cons, List.map_cons, List.foldl_cons]
    have hk : k < A.length := by rw [hA, List.length_cons]; omega
    have hkB : k < B.length := by rw [hB, List.length_cons]; omega
    have := ih (k + 1) (A.set k t) (B.set k (v t))
      (by rw [List.length_set, hA, List.length_cons]; omega)
      (by rw [List.length_set, hB, List.length_cons]; omega)
    rw [this, set_take_succ A k t hk, set_take_succ B k (v t) hkB]
    simp [List.append_assoc]

theorem exportVocab_buildVocabulary (docs : List (List Token)) :
    exportVocab (buildVocabulary docs)
      = ⟨(dfMap docs).map (·.1),
         (dfMap docs).map
           (fun p => Real.log (((docs.length : ℝ) + 1) / ((p.2 : ℝ) + 1)) + 1)⟩ := by
  have hvoc : (buildVocabulary docs).vocabulary =
      (((dfMap docs).map (·.1)).enumFrom 0).map (fun q => (q.2, q.1)) := by
    show (dfMap docs).enum.map (fun p => (p.2.1, p.1)) =
      (((dfMap docs).map (·.1)).enum).map (fun q => (q.2, q.1))
    rw [List.enum_map, List.map_map]
    apply List.map_congr_left
    rintro ⟨i, x⟩ -
    rfl
  have hlen : (buildVocabulary docs).vocabulary.length = (dfMap docs).length := by
    simp [buildVocabulary]
  simp only [exportVocab]
  rw [hlen, hvoc]
  rw [export_fold (fun t => (lookup (buildVocabulary docs).idfValues t).getD 1)
      ((dfMap docs).map (·.1)) 0
      (List.replicate (dfMap docs).length ([] : Token))
      (List.replicate (dfMap docs).length (0 : ℝ))
      (by simp) (by simp)]
  simp only [List.take_zero, List.nil_append, List.map_map]
  congr 1
  apply List.map_congr_left
  intro p hp
  have hkeys : ((buildVocabulary docs).idfValues.map (·.1)).Nodup := by
    have : (buildVocabulary docs).idfValues.map (·.1) = (dfMap docs).map (·.1) := by
      simp [buildVocabulary, List.map_map]
    rw [this]
    exact dfMap_keysNodup docs
  have hmem : ((p.1, Real.log (((docs.length : ℝ) + 1) / ((p.2 : ℝ) + 1)) + 1) : Token × ℝ)
      ∈ (buildVocabulary docs).idfValues := by
    simp only [buildVocabulary]
    exact List.mem_map_of_mem _ hp
  have := lookup_eq_some_of_mem hkeys hmem
  simp only at this
  show (lookup (buildVocabulary docs).idfValues p.1).getD 1 = _
  rw [this]
  rfl

theorem import_fold :
    ∀ (l : List (Nat × (Token × ℝ))) (m : VocabModel),
      (l.map (·.2.1)).Nodup →
      (∀ q ∈ l, q.2.1 ∉ m.vocabulary.map (·.1)) →
      (∀ q ∈ l, q.2.1 ∉ m.idfValues.map (·.1)) →
      l.foldl (fun m p => ⟨mapSet m.vocabulary p.2.1 p.1, mapSet m.idfValues p.2.1 p.2.2⟩) m
        = ⟨m.vocabulary ++ l.map (fun p => (p.2.1, p.1)),
           m.idfValues ++ l.map (fun p => (p.2.1, p.2.2))⟩ := by
  intro l
  induction l with
  | nil => intro m _ _ _; simp
  | cons q l ih =>
    intro m hnd hv hi
    simp only [List.map_cons, List.nodup_cons] at hnd
    rw [List.foldl_cons]
    have hq1 : q.2.1 ∉ m.vocabulary.map (·.1) := hv q (List.mem_cons_self _ _)
    have hq2 : q.2.1 ∉ m.idfValues.map (·.1) := hi q (List.mem_cons_self _ _)
    have hstep : (⟨mapSet m.vocabulary q.2.1 q.1, mapSet m.idfValues q.2.1 q.2.2⟩ : VocabModel)
        = ⟨m.vocabulary ++ [(q.2.1, q.1)], m.idfValues ++ [(q.2.1, q.2.2)]⟩ := by
      rw [mapSet_of_not_mem_keys _ hq1, mapSet_of_not_mem_keys _ hq2]
    rw [hstep, ih]
    · simp
    · exact hnd.2
    · intro q' hq'
      simp only [List.map_append, List.mem_append, List.map_cons, List.map_nil,
        List.mem_singleton]
      push_neg
      exact ⟨hv q' (List.mem_cons_of_mem _ hq'),
        fun he => hnd.1 (he ▸ List.mem_map_of_mem (·.2.1) hq')⟩
    · intro q' hq'
      simp only [List.map_append, List.mem_append, List.map_cons, List.map_nil,
        List.mem_singleton]
      push_neg
      exact ⟨hi q' (List.mem_cons_of_mem _ hq'),
        fun he => hnd.1 (he ▸ List.mem_map_of_mem (·.2.1) hq')⟩

theorem importVocab_eq (ts : List Token) (ws : List ℝ) (h1 : ts.Nodup)
    (h2 : ws.length = ts.length) :
    importVocab ⟨ts, ws⟩ = ⟨ts.enum.map (fun p => (p.2, p.1)), ts.zip ws⟩ := by
  have hfst : (ts.zip ws).map Prod.fst = ts := List.map_fst_zip ts ws (le_of_eq h2.symm)
  have hkeys : ((ts.zip ws).enum.map (·.2.1)).Nodup := by
    have : (ts.zip ws).enum.map (·.2.1) = ((ts.zip ws).enum.map Prod.snd).map Prod.fst := by
      rw [List.map_map]
      rfl
    rw [this, List.enum_map_snd, hfst]
    exact h1
  rw [importVocab, import_fold _ _ hkeys (by simp) (by simp)]
  congr 1
  · show List.map _ _ = _
    have : ts.enum = (ts.zip ws).enum.map (Prod.map id Prod.fst) := by
      rw [← List.enum_map, hfst]
    rw [this, List.map_map]
    symm
    apply List.map_congr_left
    rintro ⟨i, x, w⟩ -
    rfl
  · show List.map _ _ = _
    have : (ts.zip ws).enum.map (fun p => (p.2.1, p.2.2))
        = ((ts.zip ws).enum.map Prod.snd).map (fun q => (q.1, q.2)) := by
      rw [List.map_map]
      rfl
    rw [this, List.enum_map_snd]
    apply List.ext_getElem (by simp)
    intro i hi1 hi2
    simp

/-- C6: exporting the vocabulary model built from any corpus and re-importing
the snapshot reproduces the model exactly — identical term-to-index assignments
and idf weights — so vectorizing any token sequence after the round trip gives
the same vector as before. -/
theorem exportVocab_importVocab_roundtrip (docs : List (List Token)) :
    importVocab (exportVocab (buildVocabulary docs)) = buildVocabulary docs
    ∧ ∀ tokens, vectorize tokens (importVocab (exportVocab (buildVocabulary docs)))
        = vectorize tokens (buildVocabulary docs) := by
  have hmain : importVocab (exportVocab (buildVocabulary docs)) = buildVocabulary docs := by
    rw [exportVocab_buildVocabulary]
    rw [importVocab_eq _ _ (dfMap_keysNodup docs) (by simp)]
    show _ = buildVocabulary docs
    simp only [buildVocabulary]
    congr 1
    · rw [List.enum_map, List.map_map]
      apply List.map_congr_left
      rintro ⟨i, x⟩ -
      rfl
    · rw [List.zip_map']
  exact ⟨hmain, fun tokens => by rw [hmain]⟩

end XUpload
